import Mathlib

/-!
Verification of the order-matching engine in `src/engine/mod.rs`.

The Rust engine keeps two `BTreeMap<OrderedFloat<f64>, VecDeque<Order>>`
sides and matches an incoming order against the best opposite level in a
`while order.quantity > 0` loop.

Embedding choices:
* prices (`f64` under the `OrderedFloat` total order) become `Rat`;
  quantities (`u64`) become `Nat` (the only subtractions the code performs
  are by `trade_qty = min(..)`, which never underflows);
* each side of the book becomes a strictly sorted association list
  `List (Rat x List Order)` kept best-price-first: the ask side ascending
  (so the head plays the role of `asks.first_entry()`, the minimum key)
  and the bid side descending (so the head plays the role of
  `bids.last_entry()`, the maximum key);
* the `while` loop becomes `matchLoopF`, structurally recursive on a fuel
  argument; `add_order` runs it with fuel `quantity + countOrders + 1`,
  which is proved to be an upper bound on the number of iterations
  (`matchLoopF_stable`), so the fuel case is never reached from
  `add_order`;
* the `ask_queue.front_mut().unwrap()` calls, which panic on an empty
  queue, are modelled by returning `none`;
* each loop iteration that executes a trade is recorded in a ghost trace
  of `Trade` records (the Rust function itself returns `()`; its trade
  reporting is a commented-out `println!`).
-/

namespace Lob

/-- `Side` from `src/engine/mod.rs`. -/
inductive Side where
  | Buy : Side
  | Sell : Side
deriving DecidableEq

/-- `Order` from `src/engine/mod.rs`: `_id: u64, price: f64, quantity: u64, side: Side`. -/
structure Order where
  _id : Nat
  price : Rat
  quantity : Nat
  side : Side
deriving DecidableEq

/-- A trade record observed during matching: the execution price (the best
opposite key at that iteration), `trade_qty`, the resting (maker) order's id
and the incoming (taker) order's id.  This is the ghost trace of the trade
execution step of the loop; the Rust code performs this step but reports
nothing (its `println!` is commented out). -/
structure Trade where
  price : Rat
  quantity : Nat
  maker_order_id : Nat
  taker_order_id : Nat
deriving DecidableEq

/-- One side of the book: `BTreeMap<OrderedFloat<f64>, VecDeque<Order>>`
as a strictly sorted association list, kept best-price-first. -/
abbrev HalfBook := List (Rat × List Order)

/-- `OrderBook` from `src/engine/mod.rs`. -/
structure OrderBook where
  bids : HalfBook
  asks : HalfBook
deriving DecidableEq

/-- `OrderBook::new()`. -/
def OrderBook.new : OrderBook := { bids := [], asks := [] }

/-- Total number of resting orders on one side (used for the fuel bound). -/
def countOrders : HalfBook → Nat
  | [] => 0
  | (_, q) :: rest => q.length + countOrders rest

/-- Total resting quantity on one side. -/
def totalQty : HalfBook → Nat
  | [] => 0
  | (_, q) :: rest => (q.map Order.quantity).sum + totalQty rest

/-- The `while order.quantity > 0` loop shared by `match_bid` and
`match_ask` (they differ only in the crossing test `cross` and in which
side they read).  Arguments: the taker's id, the incoming order's price
`op`, the fuel, the opposite side (best level first) and the incoming
order's remaining quantity `oq`.  Returns the updated side, the remaining
quantity and the ghost trade trace; `none` models the
`front_mut().unwrap()` panic on an empty level. -/
def matchLoopF (cross : Rat → Rat → Bool) (taker : Nat) (op : Rat) :
    Nat → HalfBook → Nat → Option (HalfBook × Nat × List Trade)
  | 0, book, oq => some (book, oq, [])
  | fuel + 1, book, oq =>
    if oq = 0 then some (book, oq, []) else
    match book with
    | [] => some (book, oq, [])
    | (bestPrice, queue) :: rest =>
      if cross bestPrice op then
        match queue with
        | [] => none
        | maker :: qtail =>
          let tq := min oq maker.quantity
          let oq2 := oq - tq
          let mq2 := maker.quantity - tq
          let queue2 := if mq2 = 0 then qtail else { maker with quantity := mq2 } :: qtail
          let book2 := if queue2 = [] then rest else (bestPrice, queue2) :: rest
          match matchLoopF cross taker op fuel book2 oq2 with
          | none => none
          | some (b3, rem, ts) => some (b3, rem, ⟨bestPrice, tq, maker._id, taker⟩ :: ts)
      else some (book, oq, [])

/-- `self.bids.entry(OrderedFloat(order.price)).or_default().push_back(order.clone())`:
insert into the sorted association list, appending at the back of an
existing level or creating the level at its sorted position.  `better p k`
holds when price `p` sorts strictly before key `k` on this side. -/
def restOrder (better : Rat → Rat → Bool) : HalfBook → Rat → Order → HalfBook
  | [], p, o => [(p, [o])]
  | (k, q) :: rest, p, o =>
    if better p k then (p, [o]) :: (k, q) :: rest
    else if p = k then (k, q ++ [o]) :: rest
    else (k, q) :: restOrder better rest p o

/-- `OrderBook::match_bid`: match an incoming buy against the asks
(crossing while `best_ask_price <= order.price`), then rest any remainder
in the bids (stored descending, so `better` is `>`). -/
def match_bid (book : OrderBook) (order : Order) : Option (OrderBook × List Trade) :=
  match matchLoopF (fun best p => decide (best ≤ p)) order._id order.price
      (order.quantity + countOrders book.asks + 1) book.asks order.quantity with
  | none => none
  | some (asks2, rem, ts) =>
    some ({ bids := if rem = 0 then book.bids
                    else restOrder (fun a b => decide (b < a)) book.bids order.price
                      { order with quantity := rem },
            asks := asks2 }, ts)

/-- `OrderBook::match_ask`: match an incoming sell against the bids
(crossing while `best_bid_price >= order.price`), then rest any remainder
in the asks (stored ascending, so `better` is `<`). -/
def match_ask (book : OrderBook) (order : Order) : Option (OrderBook × List Trade) :=
  match matchLoopF (fun best p => decide (p ≤ best)) order._id order.price
      (order.quantity + countOrders book.bids + 1) book.bids order.quantity with
  | none => none
  | some (bids2, rem, ts) =>
    some ({ bids := bids2,
            asks := if rem = 0 then book.asks
                    else restOrder (fun a b => decide (a < b)) book.asks order.price
                      { order with quantity := rem } }, ts)

/-- `OrderBook::add_order`: dispatch on the side. -/
def add_order (book : OrderBook) (order : Order) : Option (OrderBook × List Trade) :=
  match order.side with
  | Side.Buy => match_bid book order
  | Side.Sell => match_ask book order

/-- Book states reachable from the empty book by `add_order` calls. -/
inductive Reachable : OrderBook → Prop where
  | empty : Reachable OrderBook.new
  | step (b b2 : OrderBook) (o : Order) (ts : List Trade) :
      Reachable b → add_order b o = some (b2, ts) → Reachable b2

/-- Best bid price: the bid side is stored descending, so its head key is
the maximum, matching `bids.last_entry()` in the Rust code. -/
def bestBid (b : OrderBook) : Option Rat := b.bids.head?.map Prod.fst

/-- Best ask price: the ask side is stored ascending, so its head key is
the minimum, matching `asks.first_entry()` in the Rust code. -/
def bestAsk (b : OrderBook) : Option Rat := b.asks.head?.map Prod.fst

/-- Keys (prices) of the levels of one side. -/
def keys (m : HalfBook) : List Rat := m.map Prod.fst

/-- Well-formedness of one side: no empty level, all quantities positive. -/
def halfOK (m : HalfBook) : Prop := ∀ e ∈ m, e.2 ≠ [] ∧ ∀ o ∈ e.2, 0 < o.quantity

/-- The ask side is strictly ascending by price. -/
def ascKeys (m : HalfBook) : Prop := List.Pairwise (fun a b : Rat => a < b) (keys m)

/-- The bid side is strictly descending by price. -/
def descKeys (m : HalfBook) : Prop := List.Pairwise (fun a b : Rat => b < a) (keys m)

/-- The book is not crossed: every bid price is below every ask price. -/
def notCrossed (b : OrderBook) : Prop :=
  ∀ pb ∈ keys b.bids, ∀ pa ∈ keys b.asks, pb < pa

/-- The full book invariant maintained by `add_order`. -/
def bookOK (b : OrderBook) : Prop :=
  descKeys b.bids ∧ ascKeys b.asks ∧ halfOK b.bids ∧ halfOK b.asks ∧ notCrossed b

/-- The resting orders of one side in book order (best price level first,
arrival order within a level), as (level price, order id) pairs. -/
def flattenMakers : HalfBook → List (Rat × Nat)
  | [] => []
  | (k, q) :: rest => q.map (fun o => (k, o._id)) ++ flattenMakers rest

/-- The opposite side an incoming order of the given side matches against,
best level first. -/
def oppSide (b : OrderBook) : Side → HalfBook
  | Side.Buy => b.asks
  | Side.Sell => b.bids

/-- The side of the book an incoming order of the given side would rest on. -/
def ownSide (b : OrderBook) : Side → HalfBook
  | Side.Buy => b.bids
  | Side.Sell => b.asks

/-- The queue left at the best level after one trade step keeps all
quantities positive. -/
theorem queue2_pos (maker : Order) (qtail : List Order) (m2 : Nat)
    (h : ∀ o ∈ qtail, 0 < o.quantity) :
    ∀ o ∈ (if m2 = 0 then qtail else { maker with quantity := m2 } :: qtail),
      0 < o.quantity := by
  split
  · exact h
  · rename_i hm2
    intro o ho
    rcases List.mem_cons.mp ho with h1 | h1
    · subst h1; exact Nat.pos_of_ne_zero hm2
    · exact h o h1

/-- The opposite side left after one trade step stays well formed. -/
theorem book2_halfOK (bp : Rat) (queue2 : List Order) (rest : HalfBook)
    (hrest : halfOK rest) (hq : ∀ o ∈ queue2, 0 < o.quantity) :
    halfOK (if queue2 = [] then rest else (bp, queue2) :: rest) := by
  split
  · exact hrest
  · rename_i hne
    intro e he
    rcases List.mem_cons.mp he with h1 | h1
    · subst h1; exact ⟨hne, hq⟩
    · exact hrest e h1

/-- On a well-formed side the loop never reaches the `unwrap` panic. -/
theorem matchLoopF_ne_none (cross : Rat → Rat → Bool) (taker : Nat) (op : Rat)
    (fuel : Nat) :
    ∀ (book : HalfBook) (oq : Nat), halfOK book →
      matchLoopF cross taker op fuel book oq ≠ none := by
  induction fuel with
  | zero => intro book oq _; simp [matchLoopF]
  | succ n ih =>
    intro book oq hok
    by_cases h0 : oq = 0
    · simp [matchLoopF, h0]
    · cases book with
      | nil => simp [matchLoopF, h0]
      | cons hd rest =>
        obtain ⟨bp, queue⟩ := hd
        have hlev := hok (bp, queue) (List.mem_cons_self _ _)
        have hrest : halfOK rest := fun e he => hok e (List.mem_cons_of_mem _ he)
        by_cases hc : cross bp op
        · cases queue with
          | nil => exact absurd rfl hlev.1
          | cons maker qtail =>
            simp only [matchLoopF, if_neg h0, if_pos hc]
            have hqtail : ∀ o ∈ qtail, 0 < o.quantity :=
              fun o ho => hlev.2 o (List.mem_cons_of_mem _ ho)
            split
            · rename_i heq
              exact absurd heq
                (ih _ _ (book2_halfOK _ _ _ hrest (queue2_pos _ _ _ hqtail)))
            · simp
        · simp [matchLoopF, if_neg h0, if_neg hc]

/-- Quantity conservation in the loop: the incoming quantity splits into
the traded quantities plus the remainder. -/
theorem matchLoopF_conserve (cross : Rat → Rat → Bool) (taker : Nat) (op : Rat)
    (fuel : Nat) :
    ∀ (book : HalfBook) (oq : Nat) (b2 : HalfBook) (rem : Nat) (ts : List Trade),
      matchLoopF cross taker op fuel book oq = some (b2, rem, ts) →
      oq = (ts.map Trade.quantity).sum + rem := by
  induction fuel with
  | zero =>
    intro book oq b2 rem ts h
    simp only [matchLoopF, Option.some.injEq, Prod.mk.injEq] at h
    obtain ⟨-, h2, h3⟩ := h
    subst h2; subst h3; simp
  | succ n ih =>
    intro book oq b2 rem ts h
    by_cases h0 : oq = 0
    · simp only [matchLoopF, if_pos h0, Option.some.injEq, Prod.mk.injEq] at h
      obtain ⟨-, h2, h3⟩ := h
      subst h2; subst h3; simp
    · cases book with
      | nil =>
        simp only [matchLoopF, if_neg h0, Option.some.injEq, Prod.mk.injEq] at h
        obtain ⟨-, h2, h3⟩ := h
        subst h2; subst h3; simp
      | cons hd rest =>
        obtain ⟨bp, queue⟩ := hd
        by_cases hc : cross bp op
        · cases queue with
          | nil => simp [matchLoopF, if_neg h0, if_pos hc] at h
          | cons maker qtail =>
            simp only [matchLoopF, if_neg h0, if_pos hc] at h
            split at h
            · exact absurd h (by simp)
            · rename_i b3 rem2 ts3 heq
              simp only [Option.some.injEq, Prod.mk.injEq] at h
              obtain ⟨-, h2, h3⟩ := h
              subst h2; subst h3
              have := ih _ _ _ _ _ heq
              simp only [List.map_cons, List.sum_cons]
              omega
        · simp only [matchLoopF, if_neg h0, if_neg hc, Option.some.injEq,
            Prod.mk.injEq] at h
          obtain ⟨-, h2, h3⟩ := h
          subst h2; subst h3; simp

/-- The level keys of the side left by one trade step form a suffix of
`bp :: keys rest`. -/
theorem keys_book2_suffix (bp : Rat) (queue2 : List Order) (rest : HalfBook) :
    keys (if queue2 = [] then rest else (bp, queue2) :: rest) <:+ bp :: keys rest := by
  split
  · exact (List.suffix_cons bp (keys rest))
  · exact List.suffix_refl _

/-- The loop only consumes levels from the front: the keys of the
resulting side are a suffix of the keys of the input side. -/
theorem matchLoopF_keys_suffix (cross : Rat → Rat → Bool) (taker : Nat) (op : Rat)
    (fuel : Nat) :
    ∀ (book : HalfBook) (oq : Nat) (b2 : HalfBook) (rem : Nat) (ts : List Trade),
      matchLoopF cross taker op fuel book oq = some (b2, rem, ts) →
      keys b2 <:+ keys book := by
  induction fuel with
  | zero =>
    intro book oq b2 rem ts h
    simp only [matchLoopF, Option.some.injEq, Prod.mk.injEq] at h
    obtain ⟨h1, -, -⟩ := h
    subst h1; exact List.suffix_refl _
  | succ n ih =>
    intro book oq b2 rem ts h
    by_cases h0 : oq = 0
    · simp only [matchLoopF, if_pos h0, Option.some.injEq, Prod.mk.injEq] at h
      obtain ⟨h1, -, -⟩ := h
      subst h1; exact List.suffix_refl _
    · cases book with
      | nil =>
        simp only [matchLoopF, if_neg h0, Option.some.injEq, Prod.mk.injEq] at h
        obtain ⟨h1, -, -⟩ := h
        subst h1; exact List.suffix_refl _
      | cons hd rest =>
        obtain ⟨bp, queue⟩ := hd
        by_cases hc : cross bp op
        · cases queue with
          | nil => simp [matchLoopF, if_neg h0, if_pos hc] at h
          | cons maker qtail =>
            simp only [matchLoopF, if_neg h0, if_pos hc] at h
            split at h
            · exact absurd h (by simp)
            · rename_i b3 rem2 ts3 heq
              simp only [Option.some.injEq, Prod.mk.injEq] at h
              obtain ⟨h1, -, -⟩ := h
              subst h1
              exact (ih _ _ _ _ _ heq).trans (keys_book2_suffix _ _ _)
        · simp only [matchLoopF, if_neg h0, if_neg hc, Option.some.injEq,
            Prod.mk.injEq] at h
          obtain ⟨h1, -, -⟩ := h
          subst h1; exact List.suffix_refl _

/-- The loop keeps the opposite side well formed: no empty level survives
an iteration and every remaining resting order has positive quantity. -/
theorem matchLoopF_halfOK (cross : Rat → Rat → Bool) (taker : Nat) (op : Rat)
    (fuel : Nat) :
    ∀ (book : HalfBook) (oq : Nat) (b2 : HalfBook) (rem : Nat) (ts : List Trade),
      halfOK book →
      matchLoopF cross taker op fuel book oq = some (b2, rem, ts) →
      halfOK b2 := by
  induction fuel with
  | zero =>
    intro book oq b2 rem ts hok h
    simp only [matchLoopF, Option.some.injEq, Prod.mk.injEq] at h
    obtain ⟨h1, -, -⟩ := h
    subst h1; exact hok
  | succ n ih =>
    intro book oq b2 rem ts hok h
    by_cases h0 : oq = 0
    · simp only [matchLoopF, if_pos h0, Option.some.injEq, Prod.mk.injEq] at h
      obtain ⟨h1, -, -⟩ := h
      subst h1; exact hok
    · cases book with
      | nil =>
        simp only [matchLoopF, if_neg h0, Option.some.injEq, Prod.mk.injEq] at h
        obtain ⟨h1, -, -⟩ := h
        subst h1; exact hok
      | cons hd rest =>
        obtain ⟨bp, queue⟩ := hd
        have hlev := hok (bp, queue) (List.mem_cons_self _ _)
        have hrest : halfOK rest := fun e he => hok e (List.mem_cons_of_mem _ he)
        by_cases hc : cross bp op
        · cases queue with
          | nil => simp [matchLoopF, if_neg h0, if_pos hc] at h
          | cons maker qtail =>
            simp only [matchLoopF, if_neg h0, if_pos hc] at h
            split at h
            · exact absurd h (by simp)
            · rename_i b3 rem2 ts3 heq
              simp only [Option.some.injEq, Prod.mk.injEq] at h
              obtain ⟨h1, -, -⟩ := h
              subst h1
              have hqtail : ∀ o ∈ qtail, 0 < o.quantity :=
                fun o ho => hlev.2 o (List.mem_cons_of_mem _ ho)
              exact ih _ _ _ _ _
                (book2_halfOK _ _ _ hrest (queue2_pos _ _ _ hqtail)) heq
        · simp only [matchLoopF, if_neg h0, if_neg hc, Option.some.injEq,
            Prod.mk.injEq] at h
          obtain ⟨h1, -, -⟩ := h
          subst h1; exact hok

/-- One trade step strictly decreases `oq + countOrders book`. -/
theorem step_measure (bp : Rat) (maker : Order) (qtail : List Order)
    (rest : HalfBook) (oq : Nat) (h0 : oq ≠ 0) :
    (oq - min oq maker.quantity) +
      countOrders
        (if (if maker.quantity - min oq maker.quantity = 0 then qtail
             else { maker with quantity := maker.quantity - min oq maker.quantity } :: qtail) = []
         then rest
         else (bp, if maker.quantity - min oq maker.quantity = 0 then qtail
               else { maker with quantity := maker.quantity - min oq maker.quantity } :: qtail) :: rest) <
      oq + countOrders ((bp, maker :: qtail) :: rest) := by
  by_cases hm : maker.quantity - min oq maker.quantity = 0
  · simp only [if_pos hm]
    split
    · rename_i hq
      subst hq
      simp only [countOrders, List.length_cons, List.length_nil]
      omega
    · simp only [countOrders, List.length_cons]
      omega
  · simp only [if_neg hm]
    have hlt : min oq maker.quantity < maker.quantity := by omega
    have htq : min oq maker.quantity = oq := by omega
    split
    · rename_i hq
      exact absurd hq (List.cons_ne_nil _ _)
    · simp only [countOrders, List.length_cons]
      omega

/-- If the loop ends with a positive remainder and enough fuel, the side
it leaves is either empty or headed by a level that fails the crossing
test (the loop stopped for a real reason, not for lack of fuel). -/
theorem matchLoopF_stop (cross : Rat → Rat → Bool) (taker : Nat) (op : Rat)
    (fuel : Nat) :
    ∀ (book : HalfBook) (oq : Nat) (b2 : HalfBook) (rem : Nat) (ts : List Trade),
      oq + countOrders book < fuel →
      matchLoopF cross taker op fuel book oq = some (b2, rem, ts) →
      rem ≠ 0 →
      b2 = [] ∨ ∃ k q r, b2 = (k, q) :: r ∧ cross k op = false := by
  induction fuel with
  | zero => intro book oq b2 rem ts hfuel; omega
  | succ n ih =>
    intro book oq b2 rem ts hfuel h hrem
    by_cases h0 : oq = 0
    · simp only [matchLoopF, if_pos h0, Option.some.injEq, Prod.mk.injEq] at h
      obtain ⟨-, h2, -⟩ := h
      omega
    · cases book with
      | nil =>
        simp only [matchLoopF, if_neg h0, Option.some.injEq, Prod.mk.injEq] at h
        obtain ⟨h1, -, -⟩ := h
        subst h1; exact Or.inl rfl
      | cons hd rest =>
        obtain ⟨bp, queue⟩ := hd
        by_cases hc : cross bp op
        · cases queue with
          | nil => simp [matchLoopF, if_neg h0, if_pos hc] at h
          | cons maker qtail =>
            simp only [matchLoopF, if_neg h0, if_pos hc] at h
            split at h
            · exact absurd h (by simp)
            · rename_i b3 rem2 ts3 heq
              simp only [Option.some.injEq, Prod.mk.injEq] at h
              obtain ⟨h1, h2, -⟩ := h
              subst h1; subst h2
              have hmeas := step_measure bp maker qtail rest oq h0
              exact ih _ _ _ _ _ (by omega) heq hrem
        · simp only [matchLoopF, if_neg h0, if_neg hc, Option.some.injEq,
            Prod.mk.injEq] at h
          obtain ⟨h1, -, -⟩ := h
          subst h1
          exact Or.inr ⟨bp, queue, rest, rfl, by simp [hc]⟩

/-- An exhausted incoming order leaves the loop immediately. -/
theorem matchLoopF_zero (cross : Rat → Rat → Bool) (taker : Nat) (op : Rat)
    (fuel : Nat) (book : HalfBook) :
    matchLoopF cross taker op fuel book 0 = some (book, 0, []) := by
  cases fuel with
  | zero => simp [matchLoopF]
  | succ n => simp [matchLoopF]

/-- The loop's result does not depend on the fuel once the fuel exceeds
`oq + countOrders book`, an upper bound on the number of iterations: the
`while` loop terminates within that many steps. -/
theorem matchLoopF_stable (cross : Rat → Rat → Bool) (taker : Nat) (op : Rat)
    (fuel1 : Nat) :
    ∀ (fuel2 : Nat) (book : HalfBook) (oq : Nat),
      oq + countOrders book < fuel1 → oq + countOrders book < fuel2 →
      matchLoopF cross taker op fuel1 book oq =
        matchLoopF cross taker op fuel2 book oq := by
  induction fuel1 with
  | zero => intro fuel2 book oq hf1; omega
  | succ n1 ih =>
    intro fuel2 book oq hf1 hf2
    cases fuel2 with
    | zero => omega
    | succ n2 =>
      by_cases h0 : oq = 0
      · subst h0
        rw [matchLoopF_zero, matchLoopF_zero]
      · cases book with
        | nil => simp [matchLoopF, h0]
        | cons hd rest =>
          obtain ⟨bp, queue⟩ := hd
          by_cases hc : cross bp op
          · cases queue with
            | nil => simp [matchLoopF, h0, hc]
            | cons maker qtail =>
              simp only [matchLoopF, if_neg h0, if_pos hc]
              have hmeas := step_measure bp maker qtail rest oq h0
              have hrec := ih n2 _ _
                (show (oq - min oq maker.quantity) +
                    countOrders
                      (if (if maker.quantity - min oq maker.quantity = 0 then qtail
                           else { maker with quantity := maker.quantity - min oq maker.quantity } :: qtail) = []
                       then rest
                       else (bp, if maker.quantity - min oq maker.quantity = 0 then qtail
                             else { maker with quantity := maker.quantity - min oq maker.quantity } :: qtail) :: rest) < n1
                  by omega)
                (by omega)
              rw [hrec]
          · simp [matchLoopF, h0, hc]

/-- With the incoming order unexhausted and the best opposite level in
view, a trade happens in this pass exactly when the crossing test accepts
the best price. -/
theorem matchLoopF_trades_iff (cross : Rat → Rat → Bool) (taker : Nat) (op : Rat)
    (fuel : Nat) (k : Rat) (q : List Order) (rest : HalfBook)
    (oq : Nat) (b2 : HalfBook) (rem : Nat) (ts : List Trade)
    (hok : halfOK ((k, q) :: rest)) (h0 : oq ≠ 0)
    (h : matchLoopF cross taker op (fuel + 1) ((k, q) :: rest) oq = some (b2, rem, ts)) :
    ts ≠ [] ↔ cross k op = true := by
  by_cases hc : cross k op
  · cases q with
    | nil => exact absurd rfl (hok (k, []) (List.mem_cons_self _ _)).1
    | cons maker qtail =>
      simp only [matchLoopF, if_neg h0, if_pos hc] at h
      split at h
      · exact absurd h (by simp)
      · rename_i b3 rem2 ts3 heq
        simp only [Option.some.injEq, Prod.mk.injEq] at h
        obtain ⟨-, -, h3⟩ := h
        subst h3
        simp [hc]
  · simp only [matchLoopF, if_neg h0, if_neg hc, Option.some.injEq,
      Prod.mk.injEq] at h
    obtain ⟨-, -, h3⟩ := h
    subst h3
    simp [hc]

/-- When the crossing test rejects the best opposite price, the loop stops
at once: the opposite side is untouched, the full quantity remains and no
trade is produced. -/
theorem matchLoopF_nocross (cross : Rat → Rat → Bool) (taker : Nat) (op : Rat)
    (fuel : Nat) (k : Rat) (q : List Order) (rest : HalfBook)
    (oq : Nat) (b2 : HalfBook) (rem : Nat) (ts : List Trade)
    (hc : cross k op = false) (h0 : oq ≠ 0)
    (h : matchLoopF cross taker op (fuel + 1) ((k, q) :: rest) oq = some (b2, rem, ts)) :
    b2 = (k, q) :: rest ∧ rem = oq ∧ ts = [] := by
  have hc2 : ¬(cross k op = true) := by simp [hc]
  simp only [matchLoopF, if_neg h0, if_neg hc2, Option.some.injEq,
    Prod.mk.injEq] at h
  obtain ⟨h1, h2, h3⟩ := h
  exact ⟨h1.symm, h2.symm, h3.symm⟩

/-- Flattening commutes with the level-cleanup step. -/
theorem flattenMakers_book2 (bp : Rat) (queue2 : List Order) (rest : HalfBook) :
    flattenMakers (if queue2 = [] then rest else (bp, queue2) :: rest) =
      queue2.map (fun o => (bp, o._id)) ++ flattenMakers rest := by
  split
  · rename_i hq; subst hq; simp
  · simp [flattenMakers]

/-- Price-then-time priority of the loop: the sequence of (price, maker)
pairs it trades is an initial segment of the opposite side read in book
order — best price level first, arrival order inside each level. -/
theorem matchLoopF_priority (cross : Rat → Rat → Bool) (taker : Nat) (op : Rat)
    (fuel : Nat) :
    ∀ (book : HalfBook) (oq : Nat) (b2 : HalfBook) (rem : Nat) (ts : List Trade),
      matchLoopF cross taker op fuel book oq = some (b2, rem, ts) →
      ∃ suf, flattenMakers book =
        ts.map (fun t => (t.price, t.maker_order_id)) ++ suf := by
  induction fuel with
  | zero =>
    intro book oq b2 rem ts h
    simp only [matchLoopF, Option.some.injEq, Prod.mk.injEq] at h
    obtain ⟨-, -, h3⟩ := h
    subst h3
    exact ⟨flattenMakers book, by simp⟩
  | succ n ih =>
    intro book oq b2 rem ts h
    by_cases h0 : oq = 0
    · simp only [matchLoopF, if_pos h0, Option.some.injEq, Prod.mk.injEq] at h
      obtain ⟨-, -, h3⟩ := h
      subst h3
      exact ⟨flattenMakers book, by simp⟩
    · cases book with
      | nil =>
        simp only [matchLoopF, if_neg h0, Option.some.injEq, Prod.mk.injEq] at h
        obtain ⟨-, -, h3⟩ := h
        subst h3
        exact ⟨flattenMakers [], by simp⟩
      | cons hd rest =>
        obtain ⟨bp, queue⟩ := hd
        by_cases hc : cross bp op
        · cases queue with
          | nil => simp [matchLoopF, if_neg h0, if_pos hc] at h
          | cons maker qtail =>
            simp only [matchLoopF, if_neg h0, if_pos hc] at h
            split at h
            · exact absurd h (by simp)
            · rename_i b3 rem2 ts3 heq
              simp only [Option.some.injEq, Prod.mk.injEq] at h
              obtain ⟨-, -, h3⟩ := h
              subst h3
              by_cases hm : maker.quantity - min oq maker.quantity = 0
              · rw [if_pos hm] at heq
                obtain ⟨suf, hsuf⟩ := ih _ _ _ _ _ heq
                rw [flattenMakers_book2] at hsuf
                refine ⟨suf, ?_⟩
                simp only [flattenMakers, List.map_cons, List.cons_append]
                rw [hsuf]
              · rw [if_neg hm] at heq
                rw [if_neg (List.cons_ne_nil _ _)] at heq
                have hoq2 : oq - min oq maker.quantity = 0 := by omega
                rw [hoq2, matchLoopF_zero] at heq
                simp only [Option.some.injEq, Prod.mk.injEq] at heq
                obtain ⟨-, -, h3⟩ := heq
                subst h3
                exact ⟨qtail.map (fun o => (bp, o._id)) ++ flattenMakers rest,
                  by simp [flattenMakers]⟩
        · simp only [matchLoopF, if_neg h0, if_neg hc, Option.some.injEq,
            Prod.mk.injEq] at h
          obtain ⟨-, -, h3⟩ := h
          subst h3
          exact ⟨flattenMakers ((bp, queue) :: rest), by simp⟩

/-- On a well-formed side every trade has positive quantity and the loop
runs at most `oq` trading iterations: the termination measure of the
`while` loop. -/
theorem matchLoopF_length (cross : Rat → Rat → Bool) (taker : Nat) (op : Rat)
    (fuel : Nat) :
    ∀ (book : HalfBook) (oq : Nat) (b2 : HalfBook) (rem : Nat) (ts : List Trade),
      halfOK book →
      matchLoopF cross taker op fuel book oq = some (b2, rem, ts) →
      ts.length ≤ oq ∧ ∀ t ∈ ts, 0 < t.quantity := by
  induction fuel with
  | zero =>
    intro book oq b2 rem ts hok h
    simp only [matchLoopF, Option.some.injEq, Prod.mk.injEq] at h
    obtain ⟨-, -, h3⟩ := h
    subst h3
    simp
  | succ n ih =>
    intro book oq b2 rem ts hok h
    by_cases h0 : oq = 0
    · simp only [matchLoopF, if_pos h0, Option.some.injEq, Prod.mk.injEq] at h
      obtain ⟨-, -, h3⟩ := h
      subst h3
      simp
    · cases book with
      | nil =>
        simp only [matchLoopF, if_neg h0, Option.some.injEq, Prod.mk.injEq] at h
        obtain ⟨-, -, h3⟩ := h
        subst h3
        simp
      | cons hd rest =>
        obtain ⟨bp, queue⟩ := hd
        have hlev := hok (bp, queue) (List.mem_cons_self _ _)
        have hrest : halfOK rest := fun e he => hok e (List.mem_cons_of_mem _ he)
        by_cases hc : cross bp op
        · cases queue with
          | nil => simp [matchLoopF, if_neg h0, if_pos hc] at h
          | cons maker qtail =>
            simp only [matchLoopF, if_neg h0, if_pos hc] at h
            split at h
            · exact absurd h (by simp)
            · rename_i b3 rem2 ts3 heq
              simp only [Option.some.injEq, Prod.mk.injEq] at h
              obtain ⟨-, -, h3⟩ := h
              subst h3
              have hqtail : ∀ o ∈ qtail, 0 < o.quantity :=
                fun o ho => hlev.2 o (List.mem_cons_of_mem _ ho)
              obtain ⟨ihlen, ihpos⟩ := ih _ _ _ _ _
                (book2_halfOK _ _ _ hrest (queue2_pos _ _ _ hqtail)) heq
              have hmpos : 0 < maker.quantity :=
                hlev.2 maker (List.mem_cons_self _ _)
              constructor
              · simp only [List.length_cons]
                omega
              · intro t ht
                rcases List.mem_cons.mp ht with h1 | h1
                · subst h1
                  simp only []
                  omega
                · exact ihpos t h1
        · simp only [matchLoopF, if_neg h0, if_neg hc, Option.some.injEq,
            Prod.mk.injEq] at h
          obtain ⟨-, -, h3⟩ := h
          subst h3
          simp

/-- A key of the side after resting an order is an old key or the rested
order's price. -/
theorem restOrder_keys_mem (better : Rat → Rat → Bool) :
    ∀ (m : HalfBook) (p : Rat) (o : Order) (k : Rat),
      k ∈ keys (restOrder better m p o) → k ∈ keys m ∨ k = p := by
  intro m
  induction m with
  | nil =>
    intro p o k hk
    simp [restOrder, keys] at hk
    exact Or.inr hk
  | cons hd rest ih =>
    intro p o k hk
    obtain ⟨hk2, q⟩ := hd
    simp only [restOrder] at hk
    split at hk
    · simp only [keys, List.map_cons, List.mem_cons] at hk ⊢
      tauto
    · split at hk
      · simp only [keys, List.map_cons, List.mem_cons] at hk ⊢
        tauto
      · simp only [keys, List.map_cons, List.mem_cons] at hk ⊢
        rcases hk with h1 | h1
        · exact Or.inl (Or.inl h1)
        · rcases ih p o k h1 with h2 | h2
          · exact Or.inl (Or.inr h2)
          · exact Or.inr h2

/-- Resting an order preserves strict sortedness of the level keys, for
any strict order `R` decided by `better`. -/
theorem restOrder_pairwise (better : Rat → Rat → Bool) (R : Rat → Rat → Prop)
    (hbR : ∀ a b : Rat, better a b = true → R a b)
    (ht : ∀ a b c : Rat, R a b → R b c → R a c)
    (htot : ∀ a b : Rat, better a b = false → a ≠ b → R b a) :
    ∀ (m : HalfBook) (p : Rat) (o : Order),
      List.Pairwise R (keys m) → List.Pairwise R (keys (restOrder better m p o)) := by
  intro m
  induction m with
  | nil =>
    intro p o _
    simp [restOrder, keys]
  | cons hd rest ih =>
    intro p o hm
    obtain ⟨k, q⟩ := hd
    simp only [keys, List.map_cons, List.pairwise_cons] at hm
    obtain ⟨hk, hrest⟩ := hm
    simp only [restOrder]
    split
    · rename_i hbet
      simp only [keys, List.map_cons, List.pairwise_cons]
      refine ⟨?_, hk, hrest⟩
      intro x hx
      rcases List.mem_cons.mp hx with h1 | h1
      · subst h1; exact hbR _ _ hbet
      · exact ht _ _ _ (hbR _ _ hbet) (hk x h1)
    · rename_i hbet
      split
      · simp only [keys, List.map_cons, List.pairwise_cons]
        exact ⟨hk, hrest⟩
      · rename_i hne
        simp only [keys, List.map_cons, List.pairwise_cons]
        refine ⟨?_, ih p o hrest⟩
        intro x hx
        rcases restOrder_keys_mem better rest p o x hx with h1 | h1
        · exact hk x h1
        · subst h1
          exact htot _ _ (Bool.of_not_eq_true hbet) hne

/-- Resting a positive-quantity order preserves side well-formedness. -/
theorem restOrder_halfOK (better : Rat → Rat → Bool) :
    ∀ (m : HalfBook) (p : Rat) (o : Order),
      0 < o.quantity → halfOK m → halfOK (restOrder better m p o) := by
  intro m
  induction m with
  | nil =>
    intro p o hq _
    intro e he
    simp only [restOrder, List.mem_singleton] at he
    subst he
    refine ⟨by simp, ?_⟩
    intro x hx
    simp only [List.mem_singleton] at hx
    subst hx; exact hq
  | cons hd rest ih =>
    intro p o hq hm
    obtain ⟨k, q⟩ := hd
    have hlev := hm (k, q) (List.mem_cons_self _ _)
    have hrest : halfOK rest := fun e he => hm e (List.mem_cons_of_mem _ he)
    simp only [restOrder]
    split
    · intro e he
      rcases List.mem_cons.mp he with h1 | h1
      · subst h1
        refine ⟨by simp, ?_⟩
        intro x hx
        simp only [List.mem_singleton] at hx
        subst hx; exact hq
      · exact hm e h1
    · split
      · intro e he
        rcases List.mem_cons.mp he with h1 | h1
        · subst h1
          refine ⟨by simp, ?_⟩
          intro x hx
          rcases List.mem_append.mp hx with h2 | h2
          · exact hlev.2 x h2
          · simp only [List.mem_singleton] at h2
            subst h2; exact hq
        · exact hrest e h1
      · intro e he
        rcases List.mem_cons.mp he with h1 | h1
        · subst h1; exact hlev
        · exact ih p o hq hrest e h1

/-- Resting an order adds exactly its quantity to the side's total. -/
theorem restOrder_totalQty (better : Rat → Rat → Bool) :
    ∀ (m : HalfBook) (p : Rat) (o : Order),
      totalQty (restOrder better m p o) = o.quantity + totalQty m := by
  intro m
  induction m with
  | nil =>
    intro p o
    simp [restOrder, totalQty]
  | cons hd rest ih =>
    intro p o
    obtain ⟨k, q⟩ := hd
    simp only [restOrder]
    split
    · simp only [totalQty, List.map_cons, List.sum_cons, List.map_nil,
        List.sum_nil]
      omega
    · split
      · simp only [totalQty, List.map_append, List.sum_append, List.map_cons,
          List.sum_cons, List.map_nil, List.sum_nil]
        omega
      · simp only [totalQty, ih p o]
        omega

/-- On a strictly ascending key list the head is the minimum. -/
theorem head_min (k : Rat) (kr : List Rat)
    (hasc : List.Pairwise (fun a b : Rat => a < b) (k :: kr)) :
    ∀ pa ∈ k :: kr, k ≤ pa := by
  intro pa hpa
  rcases List.mem_cons.mp hpa with h1 | h1
  · subst h1; exact le_refl _
  · exact le_of_lt ((List.pairwise_cons.mp hasc).1 pa h1)

/-- On a strictly descending key list the head is the maximum. -/
theorem head_max (k : Rat) (kr : List Rat)
    (hdesc : List.Pairwise (fun a b : Rat => b < a) (k :: kr)) :
    ∀ pb ∈ k :: kr, pb ≤ k := by
  intro pb hpb
  rcases List.mem_cons.mp hpb with h1 | h1
  · subst h1; exact le_refl _
  · exact le_of_lt ((List.pairwise_cons.mp hdesc).1 pb h1)

/-- `match_bid` preserves the book invariant. -/
theorem match_bid_bookOK (b : OrderBook) (o : Order) (b2 : OrderBook) (ts : List Trade)
    (hok : bookOK b) (h : match_bid b o = some (b2, ts)) : bookOK b2 := by
  obtain ⟨hdesc, hasc, hbidok, haskok, hnc⟩ := hok
  unfold match_bid at h
  split at h
  · exact absurd h (by simp)
  · rename_i asks2 rem ts2 heq
    simp only [Option.some.injEq, Prod.mk.injEq] at h
    obtain ⟨hb2, -⟩ := h
    subst hb2
    have hsuffix := matchLoopF_keys_suffix _ _ _ _ _ _ _ _ _ heq
    have hasc2 : ascKeys asks2 := List.Pairwise.sublist hsuffix.sublist hasc
    have haskok2 : halfOK asks2 := matchLoopF_halfOK _ _ _ _ _ _ _ _ _ haskok heq
    have hsub : ∀ pa ∈ keys asks2, pa ∈ keys b.asks :=
      fun pa hpa => hsuffix.sublist.subset hpa
    by_cases hrem : rem = 0
    · simp only [if_pos hrem]
      exact ⟨hdesc, hasc2, hbidok, haskok2,
        fun pb hpb pa hpa => hnc pb hpb pa (hsub pa hpa)⟩
    · simp only [if_neg hrem]
      have hstop := matchLoopF_stop _ _ _ _ _ _ _ _ _ (by omega) heq hrem
      have hprice : ∀ pa ∈ keys asks2, o.price < pa := by
        intro pa hpa
        rcases hstop with h1 | ⟨k, q2, r, h1, hcf⟩
        · subst h1; simp [keys] at hpa
        · subst h1
          have hk : o.price < k := by
            have := of_decide_eq_false hcf
            exact lt_of_not_le this
          unfold ascKeys at hasc2
          simp only [keys, List.map_cons] at hasc2 hpa
          exact lt_of_lt_of_le hk (head_min _ _ hasc2 pa hpa)
      refine ⟨?_, hasc2, ?_, haskok2, ?_⟩
      · exact restOrder_pairwise _ (fun a b => b < a)
          (fun a b hd => of_decide_eq_true hd)
          (fun a b c h1 h2 => lt_trans h2 h1)
          (fun a b hd hab => lt_of_le_of_ne (le_of_not_lt (of_decide_eq_false hd))
            hab)
          _ _ _ hdesc
      · exact restOrder_halfOK _ _ _ _ (Nat.pos_of_ne_zero hrem) hbidok
      · intro pb hpb pa hpa
        rcases restOrder_keys_mem _ _ _ _ _ hpb with h1 | h1
        · exact hnc pb h1 pa (hsub pa hpa)
        · subst h1; exact hprice pa hpa

/-- `match_ask` preserves the book invariant. -/
theorem match_ask_bookOK (b : OrderBook) (o : Order) (b2 : OrderBook) (ts : List Trade)
    (hok : bookOK b) (h : match_ask b o = some (b2, ts)) : bookOK b2 := by
  obtain ⟨hdesc, hasc, hbidok, haskok, hnc⟩ := hok
  unfold match_ask at h
  split at h
  · exact absurd h (by simp)
  · rename_i bids2 rem ts2 heq
    simp only [Option.some.injEq, Prod.mk.injEq] at h
    obtain ⟨hb2, -⟩ := h
    subst hb2
    have hsuffix := matchLoopF_keys_suffix _ _ _ _ _ _ _ _ _ heq
    have hdesc2 : descKeys bids2 := List.Pairwise.sublist hsuffix.sublist hdesc
    have hbidok2 : halfOK bids2 := matchLoopF_halfOK _ _ _ _ _ _ _ _ _ hbidok heq
    have hsub : ∀ pb ∈ keys bids2, pb ∈ keys b.bids :=
      fun pb hpb => hsuffix.sublist.subset hpb
    by_cases hrem : rem = 0
    · simp only [if_pos hrem]
      exact ⟨hdesc2, hasc, hbidok2, haskok,
        fun pb hpb pa hpa => hnc pb (hsub pb hpb) pa hpa⟩
    · simp only [if_neg hrem]
      have hstop := matchLoopF_stop _ _ _ _ _ _ _ _ _ (by omega) heq hrem
      have hprice : ∀ pb ∈ keys bids2, pb < o.price := by
        intro pb hpb
        rcases hstop with h1 | ⟨k, q2, r, h1, hcf⟩
        · subst h1; simp [keys] at hpb
        · subst h1
          have hk : k < o.price := by
            have := of_decide_eq_false hcf
            exact lt_of_not_le this
          unfold descKeys at hdesc2
          simp only [keys, List.map_cons] at hdesc2 hpb
          exact lt_of_le_of_lt (head_max _ _ hdesc2 pb hpb) hk
      refine ⟨hdesc2, ?_, hbidok2, ?_, ?_⟩
      · exact restOrder_pairwise _ (fun a b => a < b)
          (fun a b hd => of_decide_eq_true hd)
          (fun a b c h1 h2 => lt_trans h1 h2)
          (fun a b hd hab => lt_of_le_of_ne (le_of_not_lt (of_decide_eq_false hd))
            (Ne.symm hab))
          _ _ _ hasc
      · exact restOrder_halfOK _ _ _ _ (Nat.pos_of_ne_zero hrem) haskok
      · intro pb hpb pa hpa
        rcases restOrder_keys_mem _ _ _ _ _ hpa with h1 | h1
        · exact hnc pb (hsub pb hpb) pa h1
        · subst h1; exact hprice pb hpb

/-- The empty book satisfies the invariant. -/
theorem bookOK_new : bookOK OrderBook.new := by
  refine ⟨?_, ?_, ?_, ?_, ?_⟩ <;>
    simp [OrderBook.new, descKeys, ascKeys, halfOK, notCrossed, keys]

/-- `add_order` preserves the book invariant. -/
theorem add_order_bookOK (b : OrderBook) (o : Order) (b2 : OrderBook) (ts : List Trade)
    (hok : bookOK b) (h : add_order b o = some (b2, ts)) : bookOK b2 := by
  unfold add_order at h
  split at h
  · exact match_bid_bookOK b o b2 ts hok h
  · exact match_ask_bookOK b o b2 ts hok h

/-- Every reachable book satisfies the invariant. -/
theorem reachable_bookOK (b : OrderBook) (hb : Reachable b) : bookOK b := by
  induction hb with
  | empty => exact bookOK_new
  | step b b2 o ts hreach heq ih => exact add_order_bookOK b o b2 ts ih heq

/-- On a book with a well-formed ask side, `match_bid` does not panic. -/
theorem match_bid_isSome (b : OrderBook) (o : Order) (hok : halfOK b.asks) :
    (match_bid b o).isSome = true := by
  unfold match_bid
  split
  · rename_i heq
    exact absurd heq (matchLoopF_ne_none _ _ _ _ _ _ hok)
  · simp

/-- On a book with a well-formed bid side, `match_ask` does not panic. -/
theorem match_ask_isSome (b : OrderBook) (o : Order) (hok : halfOK b.bids) :
    (match_ask b o).isSome = true := by
  unfold match_ask
  split
  · rename_i heq
    exact absurd heq (matchLoopF_ne_none _ _ _ _ _ _ hok)
  · simp

/-- C10: an order with `quantity == 0` is a silent no-op: whatever its
price or side, `add_order` signals nothing, executes no trade, rests
nothing and leaves both sides of the book exactly unchanged. -/
theorem zero_quantity_noop (b : OrderBook) (o : Order) (h : o.quantity = 0) :
    add_order b o = some (b, []) := by
  unfold add_order
  split
  · unfold match_bid
    rw [h, matchLoopF_zero]
    simp
  · unfold match_ask
    rw [h, matchLoopF_zero]
    simp

/-- Witness for C10 at a zero-quantity order with negative price on a
non-empty book. -/
theorem zero_quantity_noop_witness :
    add_order { bids := [], asks := [(150, [⟨1, 150, 100, Side.Sell⟩])] }
        ⟨2, -3, 0, Side.Buy⟩ =
      some ({ bids := [], asks := [(150, [⟨1, 150, 100, Side.Sell⟩])] }, []) :=
  zero_quantity_noop { bids := [], asks := [(150, [⟨1, 150, 100, Side.Sell⟩])] }
    ⟨2, -3, 0, Side.Buy⟩ rfl

/-- C7: after every completed `add_order` call (i.e. in every reachable
book) no price level on either side is empty and every resting order has
positive quantity. -/
theorem book_wellformed (b : OrderBook) (hb : Reachable b) :
    (∀ e ∈ b.bids, e.2 ≠ [] ∧ ∀ o ∈ e.2, 0 < o.quantity) ∧
    (∀ e ∈ b.asks, e.2 ≠ [] ∧ ∀ o ∈ e.2, 0 < o.quantity) := by
  obtain ⟨-, -, h1, h2, -⟩ := reachable_bookOK b hb
  exact ⟨h1, h2⟩

/-- Witness for C7 on a book reached by two `add_order` calls, one of
which partially fills a resting order. -/
theorem book_wellformed_witness :
    (∀ e ∈ ([] : HalfBook), e.2 ≠ [] ∧ ∀ o ∈ e.2, 0 < o.quantity) ∧
    (∀ e ∈ [((150 : Rat), [(⟨1, 150, 50, Side.Sell⟩ : Order)])],
      e.2 ≠ [] ∧ ∀ o ∈ e.2, 0 < o.quantity) :=
  book_wellformed { bids := [], asks := [(150, [⟨1, 150, 50, Side.Sell⟩])] }
    (Reachable.step { bids := [], asks := [(150, [⟨1, 150, 100, Side.Sell⟩])] }
      { bids := [], asks := [(150, [⟨1, 150, 50, Side.Sell⟩])] }
      ⟨2, 150, 50, Side.Buy⟩ [⟨150, 50, 1, 2⟩]
      (Reachable.step OrderBook.new
        { bids := [], asks := [(150, [⟨1, 150, 100, Side.Sell⟩])] }
        ⟨1, 150, 100, Side.Sell⟩ [] Reachable.empty (by decide))
      (by decide))

/-- C9: on every reachable book every stored price level is a non-empty
queue, so the `front_mut().unwrap()` calls always succeed and `add_order`
never panics: in the embedding, its result is never `none`. -/
theorem add_order_no_panic (b : OrderBook) (o : Order) (hb : Reachable b) :
    (add_order b o).isSome = true := by
  obtain ⟨-, -, h1, h2, -⟩ := reachable_bookOK b hb
  unfold add_order
  split
  · exact match_bid_isSome b o h2
  · exact match_ask_isSome b o h1

/-- Witness for C9: a crossing buy against a reachable one-level ask side
exercises the `unwrap` and succeeds. -/
theorem add_order_no_panic_witness :
    (add_order { bids := [], asks := [(150, [⟨1, 150, 100, Side.Sell⟩])] }
      ⟨2, 150, 50, Side.Buy⟩).isSome = true :=
  add_order_no_panic { bids := [], asks := [(150, [⟨1, 150, 100, Side.Sell⟩])] }
    ⟨2, 150, 50, Side.Buy⟩
    (Reachable.step OrderBook.new
      { bids := [], asks := [(150, [⟨1, 150, 100, Side.Sell⟩])] }
      ⟨1, 150, 100, Side.Sell⟩ [] Reachable.empty (by decide))

/-- C3: the no-crossed-book invariant: after any sequence of `add_order`
calls from the empty book, whenever both sides are non-empty the best
(maximum) bid price is strictly below the best (minimum) ask price. -/
theorem no_crossed_book (b : OrderBook) (hb : Reachable b) (pb pa : Rat)
    (hpb : bestBid b = some pb) (hpa : bestAsk b = some pa) : pb < pa := by
  obtain ⟨-, -, -, -, hnc⟩ := reachable_bookOK b hb
  unfold bestBid at hpb
  unfold bestAsk at hpa
  cases hbids : b.bids with
  | nil => rw [hbids] at hpb; simp at hpb
  | cons e r =>
    cases hasks : b.asks with
    | nil => rw [hasks] at hpa; simp at hpa
    | cons e2 r2 =>
      rw [hbids] at hpb
      rw [hasks] at hpa
      simp only [List.head?_cons, Option.map_some', Option.some.injEq] at hpb hpa
      have h1 : pb ∈ keys b.bids := by
        rw [hbids]
        simp only [keys, List.map_cons, List.mem_cons]
        exact Or.inl hpb.symm
      have h2 : pa ∈ keys b.asks := by
        rw [hasks]
        simp only [keys, List.map_cons, List.mem_cons]
        exact Or.inl hpa.symm
      exact hnc pb h1 pa h2

/-- Witness for C3 on a two-sided reachable book: best bid 100, best ask
101. -/
theorem no_crossed_book_witness :
    bestBid { bids := [(100, [⟨1, 100, 10, Side.Buy⟩])],
              asks := [(101, [⟨2, 101, 5, Side.Sell⟩])] } = some 100 ∧
    bestAsk { bids := [(100, [⟨1, 100, 10, Side.Buy⟩])],
              asks := [(101, [⟨2, 101, 5, Side.Sell⟩])] } = some 101 ∧
    (100 : Rat) < 101 :=
  ⟨rfl, rfl,
    no_crossed_book
      { bids := [(100, [⟨1, 100, 10, Side.Buy⟩])],
        asks := [(101, [⟨2, 101, 5, Side.Sell⟩])] }
      (Reachable.step { bids := [(100, [⟨1, 100, 10, Side.Buy⟩])], asks := [] }
        { bids := [(100, [⟨1, 100, 10, Side.Buy⟩])],
          asks := [(101, [⟨2, 101, 5, Side.Sell⟩])] }
        ⟨2, 101, 5, Side.Sell⟩ []
        (Reachable.step OrderBook.new
          { bids := [(100, [⟨1, 100, 10, Side.Buy⟩])], asks := [] }
          ⟨1, 100, 10, Side.Buy⟩ [] Reachable.empty (by decide))
        (by decide))
      100 101 rfl rfl⟩

/-- C4: quantity conservation: for every submitted order, the quantity it
trades in its matching pass plus the quantity added to its own side of the
book (zero on a full fill) equals its submitted quantity. -/
theorem quantity_conserved (b : OrderBook) (o : Order) (b2 : OrderBook)
    (ts : List Trade) (h : add_order b o = some (b2, ts)) :
    o.quantity + totalQty (ownSide b o.side) =
      (ts.map Trade.quantity).sum + totalQty (ownSide b2 o.side) := by
  unfold add_order at h
  split at h
  · rename_i hside
    rw [hside]
    unfold match_bid at h
    split at h
    · exact absurd h (by simp)
    · rename_i asks2 rem ts2 heq
      simp only [Option.some.injEq, Prod.mk.injEq] at h
      obtain ⟨hb2, hts⟩ := h
      subst hb2; subst hts
      have hcons := matchLoopF_conserve _ _ _ _ _ _ _ _ _ heq
      unfold ownSide
      by_cases hrem : rem = 0
      · simp only [if_pos hrem]
        omega
      · simp only [if_neg hrem, restOrder_totalQty]
        omega
  · rename_i hside
    rw [hside]
    unfold match_ask at h
    split at h
    · exact absurd h (by simp)
    · rename_i bids2 rem ts2 heq
      simp only [Option.some.injEq, Prod.mk.injEq] at h
      obtain ⟨hb2, hts⟩ := h
      subst hb2; subst hts
      have hcons := matchLoopF_conserve _ _ _ _ _ _ _ _ _ heq
      unfold ownSide
      by_cases hrem : rem = 0
      · simp only [if_pos hrem]
        omega
      · simp only [if_neg hrem, restOrder_totalQty]
        omega

/-- Witness for C4: a buy of 50 fully fills against a resting ask of 100,
trading 50 and resting nothing. -/
theorem quantity_conserved_witness :
    (50 : Nat) + totalQty ([] : HalfBook) =
      ([(⟨150, 50, 1, 2⟩ : Trade)].map Trade.quantity).sum +
        totalQty ([] : HalfBook) :=
  quantity_conserved { bids := [], asks := [(150, [⟨1, 150, 100, Side.Sell⟩])] }
    ⟨2, 150, 50, Side.Buy⟩
    { bids := [], asks := [(150, [⟨1, 150, 50, Side.Sell⟩])] }
    [⟨150, 50, 1, 2⟩] (by decide)

/-- C8: termination of the matching loop.  On a well-formed side the loop
reaches a fixed result using any fuel above `oq + countOrders book` — i.e.
the `while` loop terminates within that many iterations — and it executes
at most `oq` trades, each of quantity `min(incoming, resting) >= 1`, which
together account for exactly the traded part of `oq`. -/
theorem matching_terminates (cross : Rat → Rat → Bool) (taker : Nat) (op : Rat)
    (book : HalfBook) (oq : Nat) (hok : halfOK book) :
    ∃ b2 rem ts,
      (∀ fuel, oq + countOrders book < fuel →
        matchLoopF cross taker op fuel book oq = some (b2, rem, ts)) ∧
      ts.length ≤ oq ∧ (∀ t ∈ ts, 0 < t.quantity) ∧
      oq = (ts.map Trade.quantity).sum + rem := by
  cases hres : matchLoopF cross taker op (oq + countOrders book + 1) book oq with
  | none => exact absurd hres (matchLoopF_ne_none _ _ _ _ _ _ hok)
  | some r =>
    obtain ⟨b2, rem, ts⟩ := r
    refine ⟨b2, rem, ts, ?_, ?_, ?_, ?_⟩
    · intro fuel hfuel
      rw [matchLoopF_stable cross taker op fuel (oq + countOrders book + 1)
        book oq hfuel (by omega)]
      exact hres
    · exact (matchLoopF_length _ _ _ _ _ _ _ _ _ hok hres).1
    · exact (matchLoopF_length _ _ _ _ _ _ _ _ _ hok hres).2
    · exact matchLoopF_conserve _ _ _ _ _ _ _ _ _ hres

/-- Witness for C8: the ask-side loop of a buy of 50 against a resting
100-lot ask, with the crossing test of `match_bid`. -/
theorem matching_terminates_witness :
    ∃ b2 rem ts,
      (∀ fuel, 50 + countOrders [((150 : Rat), [(⟨1, 150, 100, Side.Sell⟩ : Order)])] < fuel →
        matchLoopF (fun best p => decide (best ≤ p)) 2 150 fuel
          [(150, [⟨1, 150, 100, Side.Sell⟩])] 50 = some (b2, rem, ts)) ∧
      ts.length ≤ 50 ∧ (∀ t ∈ ts, 0 < t.quantity) ∧
      50 = (ts.map Trade.quantity).sum + rem :=
  matching_terminates (fun best p => decide (best ≤ p)) 2 150
    [(150, [⟨1, 150, 100, Side.Sell⟩])] 50
    (by unfold halfOK; decide)

/-- C6: crossing thresholds.  For an unexhausted incoming order facing a
non-empty opposite side on a reachable book: a buy trades exactly when
`best_ask_price <= order.price` and a sell exactly when
`best_bid_price >= order.price` (so exact price equality crosses), and
when the test fails the loop stops, leaving the opposite side untouched
with no trades. -/
theorem crossing_thresholds (b : OrderBook) (o : Order) (b2 : OrderBook)
    (ts : List Trade) (hb : Reachable b) (hq : 0 < o.quantity)
    (h : add_order b o = some (b2, ts)) :
    (∀ k q rest, o.side = Side.Buy → b.asks = (k, q) :: rest →
      ((ts ≠ [] ↔ k ≤ o.price) ∧
       (¬ k ≤ o.price → b2.asks = b.asks ∧ ts = []))) ∧
    (∀ k q rest, o.side = Side.Sell → b.bids = (k, q) :: rest →
      ((ts ≠ [] ↔ o.price ≤ k) ∧
       (¬ o.price ≤ k → b2.bids = b.bids ∧ ts = []))) := by
  obtain ⟨-, -, hbidok, haskok, -⟩ := reachable_bookOK b hb
  unfold add_order at h
  split at h
  · rename_i hside0
    constructor
    · intro k q rest hside hasks
      unfold match_bid at h
      rw [hasks] at h
      have hok2 : halfOK ((k, q) :: rest) := by rw [← hasks]; exact haskok
      split at h
      · exact absurd h (by simp)
      · rename_i asks2 rem ts2 heq
        simp only [Option.some.injEq, Prod.mk.injEq] at h
        obtain ⟨hb2, hts⟩ := h
        subst hb2; subst hts
        constructor
        · rw [matchLoopF_trades_iff _ _ _ _ _ _ _ _ _ _ _ hok2 (by omega) heq]
          simp
        · intro hnk
          have hcf : (fun best p => decide (best ≤ p)) k o.price = false := by
            simp [hnk]
          obtain ⟨ha, -, hts⟩ :=
            matchLoopF_nocross _ _ _ _ _ _ _ _ _ _ _ hcf (by omega) heq
          subst hts
          exact ⟨by rw [ha, hasks], rfl⟩
    · intro k q rest hside hbids
      rw [hside0] at hside
      exact absurd hside (by simp)
  · rename_i hside0
    constructor
    · intro k q rest hside hasks
      rw [hside0] at hside
      exact absurd hside (by simp)
    · intro k q rest hside hbids
      unfold match_ask at h
      rw [hbids] at h
      have hok2 : halfOK ((k, q) :: rest) := by rw [← hbids]; exact hbidok
      split at h
      · exact absurd h (by simp)
      · rename_i bids2 rem ts2 heq
        simp only [Option.some.injEq, Prod.mk.injEq] at h
        obtain ⟨hb2, hts⟩ := h
        subst hb2; subst hts
        constructor
        · rw [matchLoopF_trades_iff _ _ _ _ _ _ _ _ _ _ _ hok2 (by omega) heq]
          simp
        · intro hnk
          have hcf : (fun best p => decide (p ≤ best)) k o.price = false := by
            simp [hnk]
          obtain ⟨hb3, -, hts⟩ :=
            matchLoopF_nocross _ _ _ _ _ _ _ _ _ _ _ hcf (by omega) heq
          subst hts
          exact ⟨by rw [hb3, hbids], rfl⟩

/-- Witness for C6: a buy priced exactly at the best ask crosses and
trades (the `<=` threshold at equality). -/
theorem crossing_thresholds_witness :
    [(⟨150, 50, 1, 2⟩ : Trade)] ≠ [] ↔ (150 : Rat) ≤ 150 :=
  ((crossing_thresholds
      { bids := [], asks := [(150, [⟨1, 150, 100, Side.Sell⟩])] }
      ⟨2, 150, 50, Side.Buy⟩
      { bids := [], asks := [(150, [⟨1, 150, 50, Side.Sell⟩])] }
      [⟨150, 50, 1, 2⟩]
      (Reachable.step OrderBook.new
        { bids := [], asks := [(150, [⟨1, 150, 100, Side.Sell⟩])] }
        ⟨1, 150, 100, Side.Sell⟩ [] Reachable.empty (by decide))
      (by decide) (by decide)).1
    150 [⟨1, 150, 100, Side.Sell⟩] [] rfl rfl).1

/-- The opposite side an incoming order matches against is sorted best
price first: ascending asks for a buy, descending bids for a sell. -/
def bestFirstSorted : Side → HalfBook → Prop
  | Side.Buy, m => List.Pairwise (fun a b : Rat => a < b) (keys m)
  | Side.Sell, m => List.Pairwise (fun a b : Rat => b < a) (keys m)

/-- C5: price-then-time priority.  On a reachable book the opposite side
is sorted with the single best price level first (minimum-price asks for a
buy, maximum-price bids for a sell) and FIFO inside each level, and the
(price, maker) pairs traded by a matching pass are an initial segment of
that best-first, oldest-first enumeration: a worse level is never touched
while a better one exists, and orders within a level are consumed in
arrival order. -/
theorem price_time_priority (b : OrderBook) (o : Order) (b2 : OrderBook)
    (ts : List Trade) (hb : Reachable b) (h : add_order b o = some (b2, ts)) :
    bestFirstSorted o.side (oppSide b o.side) ∧
    ∃ suf, flattenMakers (oppSide b o.side) =
      ts.map (fun t => (t.price, t.maker_order_id)) ++ suf := by
  obtain ⟨hdesc, hasc, -, -, -⟩ := reachable_bookOK b hb
  unfold add_order at h
  split at h
  · rename_i hside
    rw [hside]
    unfold match_bid at h
    split at h
    · exact absurd h (by simp)
    · rename_i asks2 rem ts2 heq
      simp only [Option.some.injEq, Prod.mk.injEq] at h
      obtain ⟨-, hts⟩ := h
      subst hts
      exact ⟨hasc, matchLoopF_priority _ _ _ _ _ _ _ _ _ heq⟩
  · rename_i hside
    rw [hside]
    unfold match_ask at h
    split at h
    · exact absurd h (by simp)
    · rename_i bids2 rem ts2 heq
      simp only [Option.some.injEq, Prod.mk.injEq] at h
      obtain ⟨-, hts⟩ := h
      subst hts
      exact ⟨hdesc, matchLoopF_priority _ _ _ _ _ _ _ _ _ heq⟩

/-- Witness for C5: with asks 30 @ 140 (id 3) and 100 @ 150 (id 1, older)
then 20 @ 150 (id 2, younger), a buy of 60 @ 150 first empties the better
140 level, then partially consumes the oldest order of the 150 level:
makers (140, 3), (150, 1) — an initial segment of the book order. -/
theorem price_time_priority_witness :
    bestFirstSorted Side.Buy
      [((140 : Rat), [(⟨3, 140, 30, Side.Sell⟩ : Order)]),
       (150, [⟨1, 150, 100, Side.Sell⟩, ⟨2, 150, 20, Side.Sell⟩])] ∧
    ∃ suf,
      flattenMakers
        [((140 : Rat), [(⟨3, 140, 30, Side.Sell⟩ : Order)]),
         (150, [⟨1, 150, 100, Side.Sell⟩, ⟨2, 150, 20, Side.Sell⟩])] =
      ([(⟨140, 30, 3, 4⟩ : Trade), ⟨150, 30, 1, 4⟩].map
        (fun t => (t.price, t.maker_order_id))) ++ suf :=
  price_time_priority
    { bids := [],
      asks := [(140, [⟨3, 140, 30, Side.Sell⟩]),
               (150, [⟨1, 150, 100, Side.Sell⟩, ⟨2, 150, 20, Side.Sell⟩])] }
    ⟨4, 150, 60, Side.Buy⟩
    { bids := [],
      asks := [(150, [⟨1, 150, 70, Side.Sell⟩, ⟨2, 150, 20, Side.Sell⟩])] }
    [⟨140, 30, 3, 4⟩, ⟨150, 30, 1, 4⟩]
    (Reachable.step
      { bids := [], asks := [(150, [⟨1, 150, 100, Side.Sell⟩, ⟨2, 150, 20, Side.Sell⟩])] }
      { bids := [],
        asks := [(140, [⟨3, 140, 30, Side.Sell⟩]),
                 (150, [⟨1, 150, 100, Side.Sell⟩, ⟨2, 150, 20, Side.Sell⟩])] }
      ⟨3, 140, 30, Side.Sell⟩ []
      (Reachable.step
        { bids := [], asks := [(150, [⟨1, 150, 100, Side.Sell⟩])] }
        { bids := [], asks := [(150, [⟨1, 150, 100, Side.Sell⟩, ⟨2, 150, 20, Side.Sell⟩])] }
        ⟨2, 150, 20, Side.Sell⟩ []
        (Reachable.step OrderBook.new
          { bids := [], asks := [(150, [⟨1, 150, 100, Side.Sell⟩])] }
          ⟨1, 150, 100, Side.Sell⟩ [] Reachable.empty (by decide))
        (by decide))
      (by decide))
    (by decide)

/-- C1 counterexample: `add_order` does not reject an order with
`price <= 0`; a buy at price −1 with quantity 5 on the empty book is
accepted, rests, and mutates the book (and no error value exists to be
signalled). -/
theorem invalid_order_not_rejected_cex :
    add_order OrderBook.new ⟨7, -1, 5, Side.Buy⟩ =
      some ({ bids := [(-1, [⟨7, -1, 5, Side.Buy⟩])], asks := [] }, []) ∧
    ({ bids := [(-1, [⟨7, -1, 5, Side.Buy⟩])], asks := [] } : OrderBook) ≠
      OrderBook.new :=
  ⟨by decide, by decide⟩

/-- C1 amended: `add_order` performs no validation and never signals an
error: an order with `price <= 0` but positive quantity is processed like
any other order — on the empty book it rests on its own side at its own
price, mutating the book and producing no trades. -/
theorem add_order_no_validation (i : Nat) (p : Rat) (q : Nat) (s : Side)
    (_hp : p ≤ 0) (hq : 0 < q) :
    add_order OrderBook.new ⟨i, p, q, s⟩ =
      some ({ bids := match s with
                      | Side.Buy => [(p, [⟨i, p, q, s⟩])]
                      | Side.Sell => [],
              asks := match s with
                      | Side.Buy => []
                      | Side.Sell => [(p, [⟨i, p, q, s⟩])] }, []) := by
  have hq0 : ¬ q = 0 := by omega
  cases s
  · simp only [add_order, match_bid, OrderBook.new, countOrders]
    rw [matchLoopF]
    simp [if_neg hq0, restOrder]
  · simp only [add_order, match_ask, OrderBook.new, countOrders]
    rw [matchLoopF]
    simp [if_neg hq0, restOrder]

/-- Witness for C1's amended claim at price −1, quantity 5. -/
theorem add_order_no_validation_witness :
    add_order OrderBook.new ⟨7, -1, 5, Side.Sell⟩ =
      some ({ bids := [], asks := [(-1, [⟨7, -1, 5, Side.Sell⟩])] }, []) :=
  add_order_no_validation 7 (-1) 5 Side.Sell (by norm_num) (by norm_num)

/-- C2 evaluation at the failing input: a resting sell of 100 @ 140 then a
buy of 50 @ 150 executes one trade of 50 at the RESTING order's price 140
(not the incoming 150), maker id 1, taker id 2, in execution order.  The
trade list is the embedding's ghost trace of the loop's trade-execution
steps: the Rust `add_order` returns `()` and its trade reporting is a
commented-out `println!`, so no such records reach the caller. -/
theorem trade_records_eval :
    add_order OrderBook.new ⟨1, 140, 100, Side.Sell⟩ =
      some ({ bids := [], asks := [(140, [⟨1, 140, 100, Side.Sell⟩])] }, []) ∧
    add_order { bids := [], asks := [(140, [⟨1, 140, 100, Side.Sell⟩])] }
        ⟨2, 150, 50, Side.Buy⟩ =
      some ({ bids := [], asks := [(140, [⟨1, 140, 50, Side.Sell⟩])] },
        [⟨140, 50, 1, 2⟩]) :=
  ⟨by decide, by decide⟩

end Lob
